import Mathlib

/-!
Verification development for `src/fragility.py`.

The repository analyzes chess positions: it builds a directed interaction
graph over occupied squares (attack and defense edges, decided by probing
the move-legality collaborator), scores each position by normalized
betweenness centrality summed over attacked nodes, extracts `[%eval ...]`
annotations from move comments, and walks a game ply by ply.

The chess library (legality oracle, move application) and the PGN reader
are external collaborators of the repository: they are modelled as
parameters (`LegalOracle`, `PushOracle`) and as an already-parsed
`Option Game` input.  Betweenness centrality, delegated to networkx by the
source, is given its textbook executable definition over exact rationals
(Python floats are modelled by `ℚ`).  Everything else is translated
directly from `src/fragility.py`.
-/

namespace Frag

/-- Piece colors follow python-chess: `true` is White, `false` is Black. -/
abbrev Color := Bool

/-- Piece types follow python-chess numbering; only the pawn constant is
needed by the source (`chess.PAWN == 1`). -/
def PAWN : Nat := 1

structure Piece where
  color : Color
  pieceType : Nat
deriving DecidableEq

/-- Model of `chess.Move(from_square, to_square)` with an optional promotion. -/
structure Move where
  fromSq : Fin 64
  toSq : Fin 64
  promotion : Option Nat
deriving DecidableEq

def mkMove (a b : Fin 64) : Move := ⟨a, b, none⟩

/-- A python-chess board: piece placement over the 64 squares plus the
rest of the position state (side to move, castling rights, en-passant
square).  The legality oracle consumes the whole record. -/
structure Board where
  placement : Fin 64 → Option Piece
  turn : Color
  castling : Nat
  epSquare : Option (Fin 64)

/-- The move-generation collaborator: `move in board.legal_moves`. -/
abbrev LegalOracle := Board → Move → Bool

/-- The move-application collaborator: `board.push(move)`. -/
abbrev PushOracle := Board → Move → Board

/-- Model of `board_copy = board.copy(); board_copy.turn = color`. -/
def withTurn (b : Board) (c : Color) : Board := { b with turn := c }

/-- Model of `board.remove_piece_at(sq)` (only the placement changes). -/
def remove_piece_at (b : Board) (sq : Fin 64) : Board :=
  { b with placement := fun s => if s = sq then none else b.placement s }

/-- Graph nodes are `(square, piece)` pairs, as in the source. -/
abbrev Node := Fin 64 × Piece

/-- The `color=` edge attribute: red for attack, blue/green for White/Black
defense. -/
inductive EColor
  | red
  | blue
  | green
deriving DecidableEq

/-- The `interaction=` edge attribute. -/
inductive Interaction
  | attack
  | defense
deriving DecidableEq

structure Edge where
  src : Node
  dst : Node
  color : EColor
  interaction : Interaction
deriving DecidableEq

/-- A networkx `DiGraph`: node list and edge list, in insertion order. -/
structure Graph where
  nodes : List Node
  edges : List Edge
deriving DecidableEq

/-- Model of `\x7bsq: board.piece_at(sq) for sq in chess.SQUARES if board.piece_at(sq)\x7d`
as an association list in ascending square order. -/
def piece_positions (b : Board) : List Node :=
  (List.finRange 64).filterMap (fun sq => (b.placement sq).map (fun p => (sq, p)))

/-- Defense edge color: `'blue' if color_turn == chess.WHITE else 'green'`. -/
def defColor (c : Color) : EColor := if c then .blue else .green

/-- The body of the inner loop of `compute_interactions_for_color`: the
edges (zero or one) contributed by the ordered pair of nodes `a`, `b`.
`bdc` is `board_copy` (the position with the turn forced to `c`).  In the
attack branch the source special-cases pawns, but since `piece_b` comes
from the occupied-square map it is never `None`, so both arms perform the
same legality probe. -/
def pairEdges (legal : LegalOracle) (bdc : Board) (c : Color) (a b : Node) : List Edge :=
  if b.1 = a.1 then []
  else if b.2.color = a.2.color then
    if legal (remove_piece_at bdc b.1) (mkMove a.1 b.1) then
      [⟨a, b, defColor c, .defense⟩]
    else []
  else
    if a.2.pieceType = PAWN then
      if legal bdc (mkMove a.1 b.1) then [⟨a, b, .red, .attack⟩] else []
    else
      if legal bdc (mkMove a.1 b.1) then [⟨a, b, .red, .attack⟩] else []

/-- Model of `compute_interactions_for_color(board, color_turn)`: all occupied
squares become nodes; pieces of color `c` probe every other occupied
square for a defense or attack edge. -/
def compute_interactions_for_color (legal : LegalOracle) (b : Board) (c : Color) : Graph :=
  let pp := piece_positions b
  let bdc := withTurn b c
  { nodes := pp
    edges := pp.flatMap (fun a =>
      if a.2.color = c then pp.flatMap (fun nb => pairEdges legal bdc c a nb) else []) }

def edgeKey (e : Edge) : Node × Node := (e.src, e.dst)

/-- Model of `nx.compose(G1, G2)`: union of nodes and edges; on a shared edge key
the attributes of the second graph win, and new nodes/edges of the second
graph are appended after those of the first. -/
def composeEdges (l1 l2 : List Edge) : List Edge :=
  l1.map (fun e => ((l2.find? (fun e2 => decide (edgeKey e2 = edgeKey e))).getD e)) ++
    l2.filter (fun e2 => l1.all (fun e => decide (edgeKey e ≠ edgeKey e2)))

def composeGraphs (g1 g2 : Graph) : Graph :=
  { nodes := g1.nodes ++ g2.nodes.filter (fun n => decide (n ∉ g1.nodes))
    edges := composeEdges g1.edges g2.edges }

/-- Model of `build_interaction_graph(board)`. -/
def build_interaction_graph (legal : LegalOracle) (b : Board) : Graph :=
  composeGraphs (compute_interactions_for_color legal b true)
    (compute_interactions_for_color legal b false)

/-- Adjacency of the full directed graph; both edge kinds participate. -/
def adjacent (g : Graph) (u v : Node) : Bool :=
  g.edges.any (fun e => decide (e.src = u ∧ e.dst = v))

/-- Number of directed walks of the given length between two nodes. -/
def walkCount (g : Graph) : Nat → Node → Node → Nat
  | 0, u, v => if u = v then 1 else 0
  | k + 1, u, v =>
    (g.nodes.map (fun w => if adjacent g u w then walkCount g k w v else 0)).sum

/-- Shortest-path distance: the least length (below the node count) that
admits a walk; `none` when the target is unreachable. -/
def distOpt (g : Graph) (u v : Node) : Option Nat :=
  (List.range g.nodes.length).find? (fun k => decide (walkCount g k u v ≠ 0))

/-- Number of shortest paths between two nodes (0 when unreachable).
A walk of minimal length never repeats a node, so minimal walks and
shortest paths coincide. -/
def sigma (g : Graph) (u v : Node) : Nat :=
  match distOpt g u v with
  | some d => walkCount g d u v
  | none => 0

/-- The fraction of shortest `s`-`t` paths passing through `v`
(`σ_sv · σ_vt / σ_st` when the distances compose, else 0). -/
def pairDependency (g : Graph) (v s t : Node) : ℚ :=
  match distOpt g s t, distOpt g s v, distOpt g v t with
  | some dst, some dsv, some dvt =>
    if dsv + dvt = dst then
      ((sigma g s v : ℚ) * (sigma g v t : ℚ)) / (sigma g s t : ℚ)
    else 0
  | _, _, _ => 0

/-- Unnormalized betweenness centrality: sum of pair dependencies over all
ordered pairs `s ≠ t` avoiding `v`. -/
def rawBetweenness (g : Graph) (v : Node) : ℚ :=
  ((g.nodes.filter (fun s => decide (s ≠ v))).map (fun s =>
    ((g.nodes.filter (fun t => decide (t ≠ v ∧ t ≠ s))).map (fun t =>
      pairDependency g v s t)).sum)).sum

/-- The networkx normalization for directed graphs:
`1 / ((n - 1) * (n - 2))` when `n > 2`, no rescaling otherwise. -/
def normScale (g : Graph) : ℚ :=
  if 2 < g.nodes.length then
    1 / (((g.nodes.length : ℚ) - 1) * ((g.nodes.length : ℚ) - 2))
  else 1

/-- Model of `nx.betweenness_centrality(G, normalized=True)` on the directed graph,
over exact rationals. -/
def betweenness_centrality (g : Graph) (v : Node) : ℚ :=
  rawBetweenness g v * normScale g

/-- The nodes receiving a red edge, in first-encountered edge order (the
source collects them into a Python set; the enumeration order here fixes
the arbitrary-but-stable iteration order the spec asks to document). -/
def attackedList (g : Graph) : List Node :=
  (g.edges.filterMap (fun e => if e.color = .red then some e.dst else none)).foldl
    (fun acc v => if v ∈ acc then acc else acc ++ [v]) []

/-- Python `max(nodes, key=f)` over `h :: t`: keeps the current best and
replaces it only on a strictly larger key, so ties go to the earliest
element. -/
def pickMax (f : Node → ℚ) (h : Node) (t : List Node) : Node :=
  t.foldl (fun best x => if f best < f x then x else best) h

/-- The body of `compute_fragility_score` once the graph is built. -/
def scoreGraph (g : Graph) : ℚ × Option Node :=
  if g.nodes.length = 0 then (0, none)
  else
    let bc := betweenness_centrality g
    match attackedList g with
    | [] => (0, none)
    | h :: t => (((h :: t).map bc).sum, some (pickMax bc h t))

/-- Model of `compute_fragility_score(board)`. -/
def compute_fragility_score (legal : LegalOracle) (bd : Board) : ℚ × Option Node :=
  scoreGraph (build_interaction_graph legal bd)

/-! ## Annotation extraction (`extract_eval`) -/

/-- The two evaluation shapes: a centipawn float or a mate marker kept as
text.  Python floats are modelled by `ℚ`. -/
inductive EvalV
  | num (q : ℚ)
  | mate (s : String)
deriving DecidableEq

def headMatches : List Char → List Char → Bool
  | [], _ => true
  | _ :: _, [] => false
  | p :: ps, c :: cs => decide (p = c) && headMatches ps cs

/-- The literal part of the pattern: `[%eval ` (seven characters). -/
def tagHead : List Char := ['[', '%', 'e', 'v', 'a', 'l', ' ']

def isNumDot (c : Char) : Bool := c.isDigit || decide (c = '.')

/-- First regex alternative `[+-]?[0-9.]+` followed by `]`.  The greedy
run can only be followed by `]` at its maximal extent (any shorter cut is
followed by another `[0-9.]` character), so no backtracking survives. -/
def matchNumAlt (l : List Char) : Option (List Char) :=
  let sb : List Char × List Char :=
    match l with
    | c :: rest => if c = '+' || c = '-' then ([c], rest) else ([], l)
    | [] => ([], [])
  let run := sb.2.takeWhile isNumDot
  if run.isEmpty then none
  else
    match sb.2.drop run.length with
    | ']' :: _ => some (sb.1 ++ run)
    | _ => none

/-- Second regex alternative `#-?\d+` followed by `]`. -/
def matchMateAlt : List Char → Option (List Char)
  | '#' :: rest =>
    let sb : List Char × List Char :=
      match rest with
      | '-' :: r2 => (['-'], r2)
      | _ => ([], rest)
    let run := sb.2.takeWhile Char.isDigit
    if run.isEmpty then none
    else
      match sb.2.drop run.length with
      | ']' :: _ => some ('#' :: (sb.1 ++ run))
      | _ => none
  | [] => none
  | _ :: _ => none

/-- Try the alternatives of the capture group at one position. -/
def matchBody (l : List Char) : Option (List Char) :=
  match matchNumAlt l with
  | some g => some g
  | none => matchMateAlt l

/-- Model of `re.search(r"\[%eval ([+-]?[0-9.]+|#-?\d+)\]", ...)`: leftmost match,
returning the captured group. -/
def findTag : List Char → Option (List Char)
  | [] => none
  | c :: rest =>
    if headMatches tagHead (c :: rest) then
      match matchBody ((c :: rest).drop 7) with
      | some g => some g
      | none => findTag rest
    else findTag rest

def digitsToNat (l : List Char) : Nat :=
  l.foldl (fun n c => 10 * n + (c.toNat - 48)) 0

/-- Python `float(s)` restricted to the strings the capture group can
produce (an optional sign followed by digits and dots): it succeeds
exactly when the body has at least one digit and at most one dot. -/
def pyFloat (l : List Char) : Option ℚ :=
  let sb : (ℚ × List Char) :=
    match l with
    | c :: rest =>
      if c = '+' then (1, rest) else if c = '-' then (-1, rest) else (1, l)
    | [] => (1, [])
  let body := sb.2
  if body.isEmpty then none
  else if body.all (fun c => !c.isDigit) then none
  else if 1 < (body.filter (fun c => decide (c = '.'))).length then none
  else
    let ip := body.takeWhile (fun c => decide (c ≠ '.'))
    match body.drop ip.length with
    | [] => some (sb.1 * (digitsToNat ip : ℚ))
    | _ :: frac =>
      some (sb.1 * ((digitsToNat ip : ℚ) + (digitsToNat frac : ℚ) / ((10 : ℚ) ^ frac.length)))

/-- Model of `extract_eval(comment)`.  The `ValueError` that `float` raises on a
group such as `"."` is modelled by the `Except` error branch. -/
def extract_eval (comment : String) : Except String (Option EvalV) :=
  match findTag comment.toList with
  | none => .ok none
  | some g =>
    if g.contains '#' then .ok (some (.mate (String.mk g)))
    else
      match pyFloat g with
      | some q => .ok (some (.num q))
      | none => .error "could not convert string to float"

/-! ## Game walking and reporting -/

/-- Model of `chess.square_name(sq)`. -/
def square_name (sq : Fin 64) : String :=
  String.mk [Char.ofNat (97 + sq.val % 8), Char.ofNat (49 + sq.val / 8)]

/-- Model of `chess.piece_symbol` for promotion suffixes. -/
def piece_symbol (t : Nat) : String :=
  if t = 1 then "p" else if t = 2 then "n" else if t = 3 then "b"
  else if t = 4 then "r" else if t = 5 then "q" else if t = 6 then "k" else "?"

/-- Model of `move.uci()`. -/
def moveUci (m : Move) : String :=
  square_name m.fromSq ++ square_name m.toSq ++
    (match m.promotion with
     | some t => piece_symbol t
     | none => "")

/-- One row of the result list
`(ply_number, move_uci, fragility_score, eval_score, top_node)`. -/
structure PlyRec where
  ply : Nat
  moveUci : String
  fragility : ℚ
  evalScore : Option EvalV
  topNode : Option Node
deriving DecidableEq

/-- A parsed game: the starting position and the main line as
`(move, comment)` pairs.  `chess.pgn.read_game` returning `None` is the
`none` case of the walker input. -/
structure Game where
  start : Board
  moves : List (Move × String)

/-- The move loop of `fragility_and_eval_by_ply`; an extraction error at
any ply aborts the whole computation with no partial output. -/
def walkMoves (legal : LegalOracle) (push : PushOracle) :
    Board → Nat → List (Move × String) → Except String (List PlyRec)
  | _, _, [] => .ok []
  | bd, ply, mc :: rest =>
    let bd2 := push bd mc.1
    let pr := compute_fragility_score legal bd2
    match extract_eval mc.2 with
    | .error e => .error e
    | .ok ev =>
      match walkMoves legal push bd2 (ply + 1) rest with
      | .error e => .error e
      | .ok rs => .ok (⟨ply + 1, moveUci mc.1, pr.1, ev, pr.2⟩ :: rs)

/-- Model of `fragility_and_eval_by_ply(pgn_file)`: raises
`ValueError("No valid game was found in the PGN.")` when no game can be
read, otherwise walks the main line starting from the sentinel record. -/
def fragility_and_eval_by_ply (legal : LegalOracle) (push : PushOracle)
    (game : Option Game) : Except String (List PlyRec) :=
  match game with
  | none => .error "No valid game was found in the PGN."
  | some g =>
    let pr := compute_fragility_score legal g.start
    match walkMoves legal push g.start 0 g.moves with
    | .error e => .error e
    | .ok rs => .ok (⟨0, "start-pos", pr.1, none, pr.2⟩ :: rs)

/-- Model of the `isinstance(eval_score, float)` guard of the reporter: only numeric
evaluations feed the running total. -/
def evalStep (acc : ℚ) (e : Option EvalV) : ℚ :=
  match e with
  | some (.num q) => acc + q
  | _ => acc

/-- The running totals printed by the reporter, one per row; the total is
updated before the row is printed. -/
def cumFrom (acc : ℚ) : List PlyRec → List ℚ
  | [] => []
  | r :: rest =>
    let acc2 := evalStep acc r.evalScore
    acc2 :: cumFrom acc2 rest

def cumulativeEvals (rows : List PlyRec) : List ℚ := cumFrom 0 rows

/-! ## Spec-side definitions -/

/-- The numeric content of a row's evaluation (mate markers and absent
evaluations contribute nothing). -/
def numOfEval (e : Option EvalV) : Option ℚ :=
  match e with
  | some (.num q) => some q
  | _ => none

/-- Spec formulation of the attacked set: targets of attack edges. -/
def attackedFinset (g : Graph) : Finset Node :=
  (g.edges.filterMap (fun e => if e.color = .red then some e.dst else none)).toFinset

/-- Spec formulation of the tie-break: the first node of the enumeration
whose centrality is maximal. -/
def specSelect (f : Node → ℚ) (l : List Node) : Option Node :=
  l.find? (fun v => l.all (fun w => decide (f w ≤ f v)))

/-- A pawn's non-capturing forward step (single or double push), for the
pawn's own color. -/
def pawnForwardStep (c : Color) (a b : Fin 64) : Bool :=
  if c then
    decide (b.val = a.val + 8) || (decide (a.val / 8 = 1) && decide (b.val = a.val + 16))
  else
    decide (a.val = b.val + 8) || (decide (a.val / 8 = 6) && decide (a.val = b.val + 16))

/-- The chess fact the legality collaborator guarantees: a pawn may never
move straight forward onto an occupied square. -/
def PawnCaptureOnly (legal : LegalOracle) : Prop :=
  ∀ (bd : Board) (a b : Fin 64) (p : Piece),
    bd.placement a = some p → p.pieceType = PAWN → (bd.placement b).isSome = true →
    pawnForwardStep p.color a b = true → legal bd (mkMove a b) = false

/-- The position reached after the first `i` moves of the game. -/
def boardAfter (push : PushOracle) (g : Game) (i : Nat) : Board :=
  (g.moves.take i).foldl (fun b mc => push b mc.1) g.start

/-- The evaluation recorded for a comment when extraction succeeds. -/
def evalOf (c : String) : Option EvalV :=
  match extract_eval c with
  | .ok v => v
  | .error _ => none

def exceptIsError {α : Type} : Except String α → Bool
  | .error _ => true
  | .ok _ => false

/-! ## Concrete objects used by witnesses and counterexamples -/

/-- An oracle declaring every probed move illegal. -/
def noLegal : LegalOracle := fun _ _ => false

/-- An oracle declaring every probed move legal. -/
def allLegal : LegalOracle := fun _ _ => true

/-- A push collaborator that leaves the position unchanged (enough for
walker-shape witnesses). -/
def pushId : PushOracle := fun b _ => b

def emptyBoard : Board :=
  { placement := fun _ => none, turn := true, castling := 0, epSquare := none }

/-- White rook on a1, black rook on b1, White to move. -/
def twoRookBoard : Board :=
  { placement := fun sq =>
      if sq.val = 0 then some ⟨true, 4⟩
      else if sq.val = 1 then some ⟨false, 4⟩
      else none
    turn := true, castling := 0, epSquare := none }

/-- The two-rook position with Black recorded as the side to move. -/
def twoRookBoardBlackTurn : Board :=
  { placement := twoRookBoard.placement
    turn := false, castling := 0, epSquare := none }

/-- A game whose single move carries a comment on which `float` raises. -/
def badGame : Game :=
  { start := emptyBoard, moves := [(mkMove 0 1, "[%eval .]")] }

/-- A two-move game whose comments carry no evaluation tags. -/
def plainGame : Game :=
  { start := emptyBoard, moves := [(mkMove 0 1, ""), (mkMove 1 0, "no tag")] }

/-- The records the walker produces for `plainGame` under the trivial
collaborators. -/
def plainRs : List PlyRec :=
  [⟨0, "start-pos", 0, none, none⟩,
   ⟨1, "a1b1", 0, none, none⟩,
   ⟨2, "b1a1", 0, none, none⟩]

def demoRows : List PlyRec :=
  [⟨0, "start-pos", 0, none, none⟩,
   ⟨1, "a1b1", 0, some (.num (1/2)), none⟩,
   ⟨2, "b1a1", 0, some (.mate "#3"), none⟩,
   ⟨3, "a1b1", 0, none, none⟩]

/-! ## Graph-builder lemmas -/

theorem mem_piece_positions (bd : Board) (sq : Fin 64) (p : Piece) :
    (sq, p) ∈ piece_positions bd ↔ bd.placement sq = some p := by
  simp only [piece_positions, List.mem_filterMap, List.mem_finRange, true_and,
    Option.map_eq_some', Prod.mk.injEq]
  constructor
  · rintro ⟨a, q, hq, rfl, rfl⟩
    exact hq
  · intro h
    exact ⟨sq, p, h, rfl, rfl⟩

theorem mem_pairEdges (legal : LegalOracle) (bdc : Board) (c : Color) (a b : Node) (e : Edge) :
    e ∈ pairEdges legal bdc c a b ↔
      b.1 ≠ a.1 ∧
        ((b.2.color = a.2.color ∧ legal (remove_piece_at bdc b.1) (mkMove a.1 b.1) = true ∧
            e = ⟨a, b, defColor c, .defense⟩) ∨
          (b.2.color ≠ a.2.color ∧ legal bdc (mkMove a.1 b.1) = true ∧
            e = ⟨a, b, .red, .attack⟩)) := by
  unfold pairEdges
  split_ifs <;> simp_all

theorem mem_cifc_edges (legal : LegalOracle) (bd : Board) (c : Color) (e : Edge) :
    e ∈ (compute_interactions_for_color legal bd c).edges ↔
      ∃ a ∈ piece_positions bd, a.2.color = c ∧
        ∃ b ∈ piece_positions bd, e ∈ pairEdges legal (withTurn bd c) c a b := by
  simp only [compute_interactions_for_color, List.mem_flatMap]
  constructor
  · rintro ⟨a, ha, he⟩
    by_cases hc : a.2.color = c
    · rw [if_pos hc] at he
      obtain ⟨b, hb, hpe⟩ := List.mem_flatMap.mp he
      exact ⟨a, ha, hc, b, hb, hpe⟩
    · rw [if_neg hc] at he
      exact absurd he (List.not_mem_nil e)
  · rintro ⟨a, ha, hc, b, hb, hpe⟩
    exact ⟨a, ha, by rw [if_pos hc]; exact List.mem_flatMap.mpr ⟨b, hb, hpe⟩⟩

theorem cifc_nodes (legal : LegalOracle) (bd : Board) (c : Color) :
    (compute_interactions_for_color legal bd c).nodes = piece_positions bd := rfl

theorem cifc_edge_src_color (legal : LegalOracle) (bd : Board) (c : Color) (e : Edge)
    (h : e ∈ (compute_interactions_for_color legal bd c).edges) : e.src.2.color = c := by
  obtain ⟨a, _, hc, b, _, hpe⟩ := (mem_cifc_edges legal bd c e).mp h
  rcases ((mem_pairEdges legal (withTurn bd c) c a b e).mp hpe).2 with ⟨_, _, rfl⟩ | ⟨_, _, rfl⟩ <;>
    exact hc

theorem composeEdges_eq_append (l1 l2 : List Edge)
    (h : ∀ e1 ∈ l1, ∀ e2 ∈ l2, edgeKey e1 ≠ edgeKey e2) :
    composeEdges l1 l2 = l1 ++ l2 := by
  unfold composeEdges
  congr 1
  · have hmap : ∀ e ∈ l1, ((l2.find? (fun e2 => decide (edgeKey e2 = edgeKey e))).getD e) = e := by
      intro e he
      have : l2.find? (fun e2 => decide (edgeKey e2 = edgeKey e)) = none := by
        rw [List.find?_eq_none]
        intro x hx
        simpa using (h e he x hx).symm
      rw [this]
      rfl
    calc l1.map (fun e => ((l2.find? (fun e2 => decide (edgeKey e2 = edgeKey e))).getD e))
        = l1.map id := List.map_congr_left fun e he => hmap e he
      _ = l1 := List.map_id l1
  · rw [List.filter_eq_self]
    intro e2 he2
    simpa using fun e1 he1 => h e1 he1 e2 he2

theorem big_nodes (legal : LegalOracle) (bd : Board) :
    (build_interaction_graph legal bd).nodes = piece_positions bd := by
  unfold build_interaction_graph composeGraphs
  simp only [cifc_nodes]
  rw [List.filter_eq_nil_iff.mpr (fun n hn => by simpa using hn), List.append_nil]

theorem big_edges (legal : LegalOracle) (bd : Board) :
    (build_interaction_graph legal bd).edges =
      (compute_interactions_for_color legal bd true).edges ++
        (compute_interactions_for_color legal bd false).edges := by
  unfold build_interaction_graph composeGraphs
  exact composeEdges_eq_append _ _ (fun e1 h1 e2 h2 => by
    have hc1 := cifc_edge_src_color legal bd true e1 h1
    have hc2 := cifc_edge_src_color legal bd false e2 h2
    intro hk
    have : e1.src = e2.src := congrArg Prod.fst hk
    rw [this, hc2] at hc1
    exact Bool.false_ne_true hc1)

theorem mem_big_pair (legal : LegalOracle) (bd : Board) (e : Edge) :
    e ∈ (build_interaction_graph legal bd).edges ↔
      ∃ a ∈ piece_positions bd, ∃ b ∈ piece_positions bd,
        e ∈ pairEdges legal (withTurn bd a.2.color) a.2.color a b := by
  rw [big_edges, List.mem_append, mem_cifc_edges, mem_cifc_edges]
  constructor
  · rintro (⟨a, ha, hc, b, hb, hpe⟩ | ⟨a, ha, hc, b, hb, hpe⟩) <;>
      exact ⟨a, ha, b, hb, by rw [hc]; exact hpe⟩
  · rintro ⟨a, ha, b, hb, hpe⟩
    cases hc : a.2.color
    · exact Or.inr ⟨a, ha, hc, b, hb, by rw [hc] at hpe; exact hpe⟩
    · exact Or.inl ⟨a, ha, hc, b, hb, by rw [hc] at hpe; exact hpe⟩

/-- Claim C2: for every ordered pair of distinct occupied squares, the
builder adds a defense edge exactly when the pieces share a color and the
move is legal once the target piece is temporarily removed, and an attack
edge exactly when the colors differ and the move is legal with the target
piece kept in place; under the collaborator's pawn rule (no forward move
onto an occupied square) a pawn never yields an attack edge along its
non-capturing forward step. -/
theorem claim_C2 (legal : LegalOracle) (bd : Board) (sa sb : Fin 64) (pa pb : Piece) :
    ((Edge.mk (sa, pa) (sb, pb) (defColor pa.color) .defense ∈
        (build_interaction_graph legal bd).edges) ↔
      (bd.placement sa = some pa ∧ bd.placement sb = some pb ∧ sb ≠ sa ∧
        pb.color = pa.color ∧
        legal (remove_piece_at (withTurn bd pa.color) sb) (mkMove sa sb) = true)) ∧
    ((Edge.mk (sa, pa) (sb, pb) .red .attack ∈
        (build_interaction_graph legal bd).edges) ↔
      (bd.placement sa = some pa ∧ bd.placement sb = some pb ∧ sb ≠ sa ∧
        pb.color ≠ pa.color ∧
        legal (withTurn bd pa.color) (mkMove sa sb) = true)) ∧
    (PawnCaptureOnly legal → pa.pieceType = PAWN → pawnForwardStep pa.color sa sb = true →
      Edge.mk (sa, pa) (sb, pb) .red .attack ∉ (build_interaction_graph legal bd).edges) := by
  have hdef : (Edge.mk (sa, pa) (sb, pb) (defColor pa.color) .defense ∈
      (build_interaction_graph legal bd).edges) ↔
      (bd.placement sa = some pa ∧ bd.placement sb = some pb ∧ sb ≠ sa ∧
        pb.color = pa.color ∧
        legal (remove_piece_at (withTurn bd pa.color) sb) (mkMove sa sb) = true) := by
    rw [mem_big_pair]
    constructor
    · rintro ⟨a, ha, b, hb, hpe⟩
      rw [mem_pairEdges] at hpe
      obtain ⟨hne, hcase⟩ := hpe
      rcases hcase with ⟨hcol, hleg, heq⟩ | ⟨_, _, heq⟩
      · obtain ⟨rfl, rfl, -, -⟩ :=
          by simpa [Edge.mk.injEq] using heq.symm
        exact ⟨(mem_piece_positions bd sa pa).mp ha, (mem_piece_positions bd sb pb).mp hb,
          hne, hcol, hleg⟩
      · simpa [Edge.mk.injEq] using heq.symm
    · rintro ⟨h1, h2, hne, hcol, hleg⟩
      refine ⟨(sa, pa), (mem_piece_positions bd sa pa).mpr h1,
        (sb, pb), (mem_piece_positions bd sb pb).mpr h2, ?_⟩
      rw [mem_pairEdges]
      exact ⟨hne, Or.inl ⟨hcol, hleg, rfl⟩⟩
  have hatk : (Edge.mk (sa, pa) (sb, pb) .red .attack ∈
      (build_interaction_graph legal bd).edges) ↔
      (bd.placement sa = some pa ∧ bd.placement sb = some pb ∧ sb ≠ sa ∧
        pb.color ≠ pa.color ∧
        legal (withTurn bd pa.color) (mkMove sa sb) = true) := by
    rw [mem_big_pair]
    constructor
    · rintro ⟨a, ha, b, hb, hpe⟩
      rw [mem_pairEdges] at hpe
      obtain ⟨hne, hcase⟩ := hpe
      rcases hcase with ⟨_, _, heq⟩ | ⟨hcol, hleg, heq⟩
      · simpa [Edge.mk.injEq] using heq.symm
      · obtain ⟨rfl, rfl, -, -⟩ :=
          by simpa [Edge.mk.injEq] using heq.symm
        exact ⟨(mem_piece_positions bd sa pa).mp ha, (mem_piece_positions bd sb pb).mp hb,
          hne, hcol, hleg⟩
    · rintro ⟨h1, h2, hne, hcol, hleg⟩
      refine ⟨(sa, pa), (mem_piece_positions bd sa pa).mpr h1,
        (sb, pb), (mem_piece_positions bd sb pb).mpr h2, ?_⟩
      rw [mem_pairEdges]
      exact ⟨hne, Or.inr ⟨hcol, hleg, rfl⟩⟩
  refine ⟨hdef, hatk, ?_⟩
  intro hrule hpawn hstep hmem
  obtain ⟨h1, h2, -, -, hleg⟩ := hatk.mp hmem
  have := hrule (withTurn bd pa.color) sa sb pa h1 hpawn (by simp [withTurn, h2]) hstep
  rw [hleg] at this
  exact Bool.noConfusion this

/-- Witness for C2: at the everything-illegal oracle (which trivially
satisfies the pawn rule), a white pawn on a2 yields no attack edge onto
a3, its forward square. -/
theorem claim_C2_witness :
    Edge.mk ((8 : Fin 64), ⟨true, PAWN⟩) ((16 : Fin 64), ⟨false, PAWN⟩) .red .attack ∉
      (build_interaction_graph noLegal twoRookBoard).edges :=
  (claim_C2 noLegal twoRookBoard 8 16 ⟨true, PAWN⟩ ⟨false, PAWN⟩).2.2
    (fun _ _ _ _ _ _ _ _ => rfl) rfl (by decide)

/-! ## Structural invariants of the built graph -/

theorem nodup_of_length_le_one {α : Type} {l : List α} (h : l.length ≤ 1) : l.Nodup := by
  cases l with
  | nil => exact List.nodup_nil
  | cons a t =>
    cases t with
    | nil => simp
    | cons b t2 => simp at h

theorem pp_map_fst_nodup (bd : Board) : ((piece_positions bd).map Prod.fst).Nodup := by
  unfold piece_positions
  rw [List.map_filterMap]
  refine List.Nodup.filterMap ?_ (List.nodup_finRange 64)
  intro a a' b hb hb'
  simp only [Option.mem_def, Option.map_eq_some', Option.map_map] at hb hb'
  obtain ⟨q, -, hq⟩ := hb
  obtain ⟨q', -, hq'⟩ := hb'
  simp only [Function.comp] at hq hq'
  exact hq.trans hq'.symm

theorem pp_nodup (bd : Board) : (piece_positions bd).Nodup :=
  List.Nodup.of_map Prod.fst (pp_map_fst_nodup bd)

theorem pairEdges_key (legal : LegalOracle) (bdc : Board) (c : Color) (a b : Node) :
    ∀ x ∈ (pairEdges legal bdc c a b).map edgeKey, x = (a, b) := by
  intro x hx
  obtain ⟨e, he, rfl⟩ := List.mem_map.mp hx
  rcases ((mem_pairEdges legal bdc c a b e).mp he).2 with ⟨-, -, rfl⟩ | ⟨-, -, rfl⟩ <;> rfl

theorem pairEdges_length_le (legal : LegalOracle) (bdc : Board) (c : Color) (a b : Node) :
    (pairEdges legal bdc c a b).length ≤ 1 := by
  unfold pairEdges
  split_ifs <;> simp

theorem keys_nodup_general (pp : List Node) (hpp : pp.Nodup) (E : Node → Node → List Edge)
    (P : Node → Prop) [DecidablePred P]
    (hkey : ∀ a b, ∀ x ∈ (E a b).map edgeKey, x = (a, b))
    (hlen : ∀ a b, (E a b).length ≤ 1) :
    ((pp.flatMap (fun a => if P a then pp.flatMap (fun b => E a b) else [])).map
      edgeKey).Nodup := by
  rw [List.map_flatMap]
  have hmem : ∀ a x,
      x ∈ (if P a then pp.flatMap (fun b => E a b) else []).map edgeKey → x.1 = a := by
    intro a x hx
    by_cases hP : P a
    · rw [if_pos hP, List.map_flatMap] at hx
      obtain ⟨b, -, hxb⟩ := List.mem_flatMap.mp hx
      rw [hkey a b x hxb]
    · rw [if_neg hP] at hx
      simp at hx
  refine List.nodup_flatMap.mpr ⟨?_, ?_⟩
  · intro a _
    by_cases hP : P a
    · rw [if_pos hP, List.map_flatMap]
      refine List.nodup_flatMap.mpr ⟨?_, ?_⟩
      · intro b _
        exact nodup_of_length_le_one (by rw [List.length_map]; exact hlen a b)
      · refine hpp.imp ?_
        intro b1 b2 hne x hx1 hx2
        rw [hkey a b1 x hx1] at hx2
        exact hne (Prod.mk.injEq .. ▸ (hkey a b2 _ hx2)).2
    · rw [if_neg hP]
      simp
  · refine hpp.imp ?_
    intro a1 a2 hne x hx1 hx2
    exact hne ((hmem a1 x hx1).symm.trans (hmem a2 x hx2))

theorem cifc_keys_nodup (legal : LegalOracle) (bd : Board) (c : Color) :
    ((compute_interactions_for_color legal bd c).edges.map edgeKey).Nodup := by
  unfold compute_interactions_for_color
  exact keys_nodup_general (piece_positions bd) (pp_nodup bd)
    (pairEdges legal (withTurn bd c) c) (fun a => a.2.color = c)
    (fun a b => pairEdges_key legal (withTurn bd c) c a b)
    (fun a b => pairEdges_length_le legal (withTurn bd c) c a b)

theorem big_keys_nodup (legal : LegalOracle) (bd : Board) :
    ((build_interaction_graph legal bd).edges.map edgeKey).Nodup := by
  rw [big_edges, List.map_append]
  refine List.Nodup.append (cifc_keys_nodup legal bd true) (cifc_keys_nodup legal bd false) ?_
  intro x hx1 hx2
  obtain ⟨e1, he1, rfl⟩ := List.mem_map.mp hx1
  obtain ⟨e2, he2, hk⟩ := List.mem_map.mp hx2
  have c1 := cifc_edge_src_color legal bd true e1 he1
  have c2 := cifc_edge_src_color legal bd false e2 he2
  have : e1.src = e2.src := congrArg Prod.fst hk.symm
  rw [this, c2] at c1
  exact Bool.false_ne_true c1

theorem countP_le_one_of_key_nodup {l : List Edge} (h : (l.map edgeKey).Nodup)
    (k : Node × Node) : l.countP (fun e => decide (edgeKey e = k)) ≤ 1 := by
  induction l with
  | nil => simp
  | cons e t ih =>
    rw [List.map_cons] at h
    have h1 := (List.nodup_cons.mp h).1
    have h2 := (List.nodup_cons.mp h).2
    rw [List.countP_cons]
    by_cases hk : edgeKey e = k
    · have hz : t.countP (fun e2 => decide (edgeKey e2 = k)) = 0 := by
        rw [List.countP_eq_zero]
        intro e2 he2
        simp only [decide_eq_true_eq]
        intro hek
        exact h1 (hk ▸ hek ▸ List.mem_map_of_mem edgeKey he2)
      simp [hz, hk]
    · simpa [hk] using ih h2

/-- The attributes and endpoints any edge of the built graph can carry. -/
theorem big_edge_shape (legal : LegalOracle) (bd : Board) (e : Edge)
    (h : e ∈ (build_interaction_graph legal bd).edges) :
    e.src.1 ≠ e.dst.1 ∧
      (e.interaction = .attack ↔ e.src.2.color ≠ e.dst.2.color) ∧
      (e.interaction = .defense ↔ e.src.2.color = e.dst.2.color) ∧
      (e.color = .red ↔ e.interaction = .attack) := by
  obtain ⟨a, -, b, -, hpe⟩ := (mem_big_pair legal bd e).mp h
  obtain ⟨hne, hcase⟩ := (mem_pairEdges legal (withTurn bd a.2.color) a.2.color a b e).mp hpe
  rcases hcase with ⟨hcol, -, rfl⟩ | ⟨hcol, -, rfl⟩
  · refine ⟨Ne.symm hne, ?_, ?_, ?_⟩
    · simp [hcol]
    · simp [hcol]
    · cases a.2.color <;> simp [defColor]
  · refine ⟨Ne.symm hne, ?_, ?_, ?_⟩
    · simpa using Ne.symm hcol
    · simp [Ne.symm hcol]
    · simp

/-- Claim C9: the built graph has one node per occupied square, no
self-loops, at most one edge per ordered node pair, and the edge kind is
determined by the endpoint colors (attack for opposite colors, defense for
equal colors, the red color marking exactly the attack edges). -/
theorem claim_C9 (legal : LegalOracle) (bd : Board) :
    (∀ sq p, ((sq, p) ∈ (build_interaction_graph legal bd).nodes ↔
        bd.placement sq = some p)) ∧
    ((build_interaction_graph legal bd).nodes.map Prod.fst).Nodup ∧
    (∀ e ∈ (build_interaction_graph legal bd).edges, e.src.1 ≠ e.dst.1) ∧
    (∀ n m : Node,
      (build_interaction_graph legal bd).edges.countP
        (fun e => decide (edgeKey e = (n, m))) ≤ 1) ∧
    (∀ e ∈ (build_interaction_graph legal bd).edges,
      (e.interaction = .attack ↔ e.src.2.color ≠ e.dst.2.color) ∧
        (e.interaction = .defense ↔ e.src.2.color = e.dst.2.color) ∧
        (e.color = .red ↔ e.interaction = .attack)) := by
  refine ⟨?_, ?_, ?_, ?_, ?_⟩
  · intro sq p
    rw [big_nodes]
    exact mem_piece_positions bd sq p
  · rw [big_nodes]
    exact pp_map_fst_nodup bd
  · intro e he
    exact (big_edge_shape legal bd e he).1
  · intro n m
    exact countP_le_one_of_key_nodup (big_keys_nodup legal bd) (n, m)
  · intro e he
    exact (big_edge_shape legal bd e he).2

/-- Witness for C9: the white rook node of the two-rook position. -/
theorem claim_C9_witness :
    ((0 : Fin 64), (⟨true, 4⟩ : Piece)) ∈
      (build_interaction_graph allLegal twoRookBoard).nodes :=
  ((claim_C9 allLegal twoRookBoard).1 0 ⟨true, 4⟩).mpr (by decide)

/-! ## Side-to-move independence -/

/-- Claim C5: two positions identical except for the recorded side to move
produce the same interaction graph and the same fragility result (the
builder overwrites the turn for each color pass). -/
theorem claim_C5 (legal : LegalOracle) (b1 b2 : Board)
    (hp : b1.placement = b2.placement) (hc : b1.castling = b2.castling)
    (he : b1.epSquare = b2.epSquare) :
    build_interaction_graph legal b1 = build_interaction_graph legal b2 ∧
      compute_fragility_score legal b1 = compute_fragility_score legal b2 := by
  have hw : ∀ c, withTurn b1 c = withTurn b2 c := by
    intro c
    cases b1
    cases b2
    simp only [withTurn]
    simp_all
  have hpp : piece_positions b1 = piece_positions b2 := by
    unfold piece_positions
    rw [hp]
  have hcifc : ∀ c, compute_interactions_for_color legal b1 c =
      compute_interactions_for_color legal b2 c := by
    intro c
    unfold compute_interactions_for_color
    rw [hpp, hw]
  have hbig : build_interaction_graph legal b1 = build_interaction_graph legal b2 := by
    unfold build_interaction_graph
    rw [hcifc, hcifc]
  exact ⟨hbig, by unfold compute_fragility_score; rw [hbig]⟩

/-- Witness for C5: flipping the turn of the two-rook position changes
nothing. -/
theorem claim_C5_witness :
    compute_fragility_score allLegal twoRookBoard =
      compute_fragility_score allLegal twoRookBoardBlackTurn :=
  (claim_C5 allLegal twoRookBoard twoRookBoardBlackTurn rfl rfl rfl).2

/-! ## Fragility-scorer lemmas -/

theorem foldl_addUnique_spec (l : List Node) :
    ∀ acc : List Node, acc.Nodup →
      (l.foldl (fun acc v => if v ∈ acc then acc else acc ++ [v]) acc).Nodup ∧
      ∀ x, (x ∈ l.foldl (fun acc v => if v ∈ acc then acc else acc ++ [v]) acc ↔
        x ∈ acc ∨ x ∈ l) := by
  induction l with
  | nil =>
    intro acc h
    exact ⟨h, fun x => by simp⟩
  | cons v t ih =>
    intro acc h
    rw [List.foldl_cons]
    by_cases hv : v ∈ acc
    · rw [if_pos hv]
      obtain ⟨h1, h2⟩ := ih acc h
      refine ⟨h1, fun x => ?_⟩
      rw [h2 x]
      constructor
      · rintro (hx | hx)
        · exact Or.inl hx
        · exact Or.inr (List.mem_cons_of_mem v hx)
      · rintro (hx | hx)
        · exact Or.inl hx
        · rcases List.mem_cons.mp hx with rfl | hx
          · exact Or.inl hv
          · exact Or.inr hx
    · rw [if_neg hv]
      have hnodup : (acc ++ [v]).Nodup := by
        rw [List.nodup_append]
        exact ⟨h, List.nodup_singleton v, by simpa using hv⟩
      obtain ⟨h1, h2⟩ := ih (acc ++ [v]) hnodup
      refine ⟨h1, fun x => ?_⟩
      rw [h2 x]
      simp only [List.mem_append, List.mem_singleton, List.mem_cons]
      tauto

theorem attackedList_nodup (g : Graph) : (attackedList g).Nodup :=
  (foldl_addUnique_spec _ [] List.nodup_nil).1

theorem mem_attackedList (g : Graph) (v : Node) :
    v ∈ attackedList g ↔ ∃ e ∈ g.edges, e.color = .red ∧ e.dst = v := by
  unfold attackedList
  rw [(foldl_addUnique_spec _ [] List.nodup_nil).2 v]
  simp only [List.not_mem_nil, false_or, List.mem_filterMap]
  constructor
  · rintro ⟨e, he, hev⟩
    by_cases hr : e.color = .red
    · rw [if_pos hr] at hev
      exact ⟨e, he, hr, Option.some.inj hev⟩
    · rw [if_neg hr] at hev
      exact absurd hev (Option.some_ne_none v).symm
  · rintro ⟨e, he, hr, rfl⟩
    exact ⟨e, he, by rw [if_pos hr]⟩

theorem attackedList_toFinset (g : Graph) : (attackedList g).toFinset = attackedFinset g := by
  ext v
  rw [List.mem_toFinset, mem_attackedList]
  unfold attackedFinset
  rw [List.mem_toFinset, List.mem_filterMap]
  constructor
  · rintro ⟨e, he, hr, rfl⟩
    exact ⟨e, he, by rw [if_pos hr]⟩
  · rintro ⟨e, he, hev⟩
    by_cases hr : e.color = .red
    · rw [if_pos hr] at hev
      exact ⟨e, he, hr, Option.some.inj hev⟩
    · rw [if_neg hr] at hev
      exact absurd hev (Option.some_ne_none v).symm

theorem find?_append_first {α : Type} (pred : α → Bool) (l1 : List α) (x : α) (l2 : List α)
    (h1 : ∀ y ∈ l1, pred y = false) (hx : pred x = true) :
    (l1 ++ x :: l2).find? pred = some x := by
  induction l1 with
  | nil => simpa using List.find?_cons_of_pos l2 hx
  | cons a t ih =>
    rw [List.cons_append, List.find?_cons_of_neg _ (by simpa using h1 a (by simp))]
    exact ih fun y hy => h1 y (List.mem_cons_of_mem a hy)

theorem pickMax_split (f : Node → ℚ) (t : List Node) (b : Node) :
    (pickMax f b t = b ∧ ∀ x ∈ t, f x ≤ f b) ∨
      ∃ t1 x t2, t = t1 ++ x :: t2 ∧ pickMax f b t = x ∧ f b < f x ∧
        (∀ y ∈ t1, f y < f x) ∧ (∀ y ∈ t2, f y ≤ f x) := by
  induction t generalizing b with
  | nil =>
    left
    exact ⟨rfl, by simp⟩
  | cons h tl ih =>
    have hstep : pickMax f b (h :: tl) = pickMax f (if f b < f h then h else b) tl := by
      unfold pickMax
      rw [List.foldl_cons]
    by_cases hb : f b < f h
    · rw [if_pos hb] at hstep
      rcases ih h with ⟨heq, hub⟩ | ⟨t1, x, t2, ht, heq, hlt, ht1, ht2⟩
      · right
        exact ⟨[], h, tl, by simp, hstep.trans heq, hb, by simp, hub⟩
      · right
        refine ⟨h :: t1, x, t2, by rw [ht]; rfl, hstep.trans heq, lt_trans hb hlt, ?_, ht2⟩
        intro y hy
        rcases List.mem_cons.mp hy with rfl | hy
        · exact hlt
        · exact ht1 y hy
    · rw [if_neg hb] at hstep
      rcases ih b with ⟨heq, hub⟩ | ⟨t1, x, t2, ht, heq, hlt, ht1, ht2⟩
      · left
        refine ⟨hstep.trans heq, fun x hx => ?_⟩
        rcases List.mem_cons.mp hx with rfl | hx
        · exact le_of_not_lt hb
        · exact hub x hx
      · right
        refine ⟨h :: t1, x, t2, by rw [ht]; rfl, hstep.trans heq, hlt, ?_, ht2⟩
        intro y hy
        rcases List.mem_cons.mp hy with rfl | hy
        · exact lt_of_le_of_lt (le_of_not_lt hb) hlt
        · exact ht1 y hy

theorem specSelect_cons_pickMax (f : Node → ℚ) (h : Node) (t : List Node) :
    specSelect f (h :: t) = some (pickMax f h t) := by
  rcases pickMax_split f t h with ⟨heq, hub⟩ | ⟨t1, x, t2, ht, heq, hlt, ht1, ht2⟩
  · rw [heq]
    unfold specSelect
    refine List.find?_cons_of_pos t ?_
    rw [List.all_eq_true]
    intro w hw
    simp only [decide_eq_true_eq]
    rcases List.mem_cons.mp hw with rfl | hw
    · exact le_refl _
    · exact hub w hw
  · rw [heq, ht]
    unfold specSelect
    rw [show h :: (t1 ++ x :: t2) = (h :: t1) ++ x :: t2 from rfl]
    refine find?_append_first _ (h :: t1) x t2 ?_ ?_
    · intro y hy
      have hylt : f y < f x := by
        rcases List.mem_cons.mp hy with rfl | hy
        · exact hlt
        · exact ht1 y hy
      rw [List.all_eq_false]
      refine ⟨x, by simp, by simp [not_le.mpr hylt]⟩
    · rw [List.all_eq_true]
      intro w hw
      simp only [decide_eq_true_eq]
      rcases List.mem_append.mp hw with hw | hw
      · rcases List.mem_cons.mp hw with rfl | hw
        · exact le_of_lt hlt
        · exact le_of_lt (ht1 w hw)
      · rcases List.mem_cons.mp hw with rfl | hw
        · exact le_refl _
        · exact ht2 w hw

theorem pairDependency_nonneg (g : Graph) (v s t : Node) : 0 ≤ pairDependency g v s t := by
  unfold pairDependency
  rcases distOpt g s t with - | dst <;> rcases distOpt g s v with - | dsv <;>
    rcases distOpt g v t with - | dvt <;> simp only
  any_goals exact le_refl 0
  split_ifs
  · positivity
  · exact le_refl 0

theorem rawBetweenness_nonneg (g : Graph) (v : Node) : 0 ≤ rawBetweenness g v := by
  unfold rawBetweenness
  refine List.sum_nonneg ?_
  intro x hx
  obtain ⟨s, -, rfl⟩ := List.mem_map.mp hx
  refine List.sum_nonneg ?_
  intro y hy
  obtain ⟨t, -, rfl⟩ := List.mem_map.mp hy
  exact pairDependency_nonneg g v s t

theorem normScale_nonneg (g : Graph) : 0 ≤ normScale g := by
  unfold normScale
  split_ifs with h
  · have h2 : (2 : ℚ) < (g.nodes.length : ℚ) := by exact_mod_cast h
    apply div_nonneg zero_le_one
    nlinarith
  · exact zero_le_one

theorem betweenness_nonneg (g : Graph) (v : Node) : 0 ≤ betweenness_centrality g v :=
  mul_nonneg (rawBetweenness_nonneg g v) (normScale_nonneg g)

theorem big_edge_endpoints (legal : LegalOracle) (bd : Board) (e : Edge)
    (h : e ∈ (build_interaction_graph legal bd).edges) :
    e.src ∈ (build_interaction_graph legal bd).nodes ∧
      e.dst ∈ (build_interaction_graph legal bd).nodes := by
  obtain ⟨a, ha, b, hb, hpe⟩ := (mem_big_pair legal bd e).mp h
  rw [big_nodes]
  rcases ((mem_pairEdges legal (withTurn bd a.2.color) a.2.color a b e).mp hpe).2 with
    ⟨-, -, rfl⟩ | ⟨-, -, rfl⟩ <;> exact ⟨ha, hb⟩

theorem scoreGraph_of_attacked (g : Graph) (hd : Node) (tl : List Node)
    (hn : g.nodes.length ≠ 0) (h : attackedList g = hd :: tl) :
    scoreGraph g = (((hd :: tl).map (betweenness_centrality g)).sum,
      some (pickMax (betweenness_centrality g) hd tl)) := by
  unfold scoreGraph
  rw [if_neg hn, h]

/-- Claim C1: the scorer returns `(0, none)` on an empty graph; otherwise,
with the attacked set (the red-edge targets) non-empty, the fragility is
the sum of the normalized betweenness centralities of the attacked nodes
and the top node is the first attacked node of maximal centrality in
enumeration order. -/
theorem claim_C1 (legal : LegalOracle) (bd : Board) :
    ((build_interaction_graph legal bd).nodes = [] →
      compute_fragility_score legal bd = (0, none)) ∧
    (∀ v, v ∈ attackedFinset (build_interaction_graph legal bd) ↔
      ∃ e ∈ (build_interaction_graph legal bd).edges, e.color = .red ∧ e.dst = v) ∧
    ((∃ e ∈ (build_interaction_graph legal bd).edges, e.color = .red) →
      (compute_fragility_score legal bd).1 =
        (attackedFinset (build_interaction_graph legal bd)).sum
          (betweenness_centrality (build_interaction_graph legal bd)) ∧
      (compute_fragility_score legal bd).2 =
        specSelect (betweenness_centrality (build_interaction_graph legal bd))
          (attackedList (build_interaction_graph legal bd))) := by
  refine ⟨?_, ?_, ?_⟩
  · intro h
    unfold compute_fragility_score scoreGraph
    rw [if_pos (by rw [h]; rfl)]
  · intro v
    rw [← attackedList_toFinset, List.mem_toFinset]
    exact mem_attackedList _ v
  · rintro ⟨e, he, hr⟩
    have hdst : e.dst ∈ attackedList (build_interaction_graph legal bd) :=
      (mem_attackedList _ _).mpr ⟨e, he, hr, rfl⟩
    have hn : (build_interaction_graph legal bd).nodes.length ≠ 0 := by
      intro hlen
      have hmem := (big_edge_endpoints legal bd e he).1
      rw [List.length_eq_zero] at hlen
      rw [hlen] at hmem
      exact List.not_mem_nil _ hmem
    cases hAtt : attackedList (build_interaction_graph legal bd) with
    | nil => rw [hAtt] at hdst; exact absurd hdst (List.not_mem_nil _)
    | cons hd tl =>
      have hsc := scoreGraph_of_attacked (build_interaction_graph legal bd) hd tl hn hAtt
      unfold compute_fragility_score
      rw [hsc]
      constructor
      · rw [← attackedList_toFinset,
          List.sum_toFinset _ (attackedList_nodup (build_interaction_graph legal bd)), hAtt]
      · rw [specSelect_cons_pickMax]

/-- Witness for C1: in the two-rook position under the everything-legal
oracle the mutual rook attacks give a non-empty attacked set, and the
fragility is the centrality sum over it. -/
theorem claim_C1_witness :
    (compute_fragility_score allLegal twoRookBoard).1 =
      (attackedFinset (build_interaction_graph allLegal twoRookBoard)).sum
        (betweenness_centrality (build_interaction_graph allLegal twoRookBoard)) :=
  ((claim_C1 allLegal twoRookBoard).2.2 (by decide)).1

/-- Claim C3: the fragility score is never negative, and when no edge of
the built graph is an attack edge the scorer returns exactly `(0, none)`. -/
theorem claim_C3 (legal : LegalOracle) (bd : Board) :
    0 ≤ (compute_fragility_score legal bd).1 ∧
    ((∀ e ∈ (build_interaction_graph legal bd).edges, e.interaction ≠ .attack) →
      compute_fragility_score legal bd = (0, none)) := by
  constructor
  · unfold compute_fragility_score scoreGraph
    split_ifs
    · exact le_refl 0
    · cases hAtt : attackedList (build_interaction_graph legal bd) with
      | nil => simp
      | cons hd tl =>
        simp only
        refine List.sum_nonneg ?_
        intro x hx
        obtain ⟨v, -, rfl⟩ := List.mem_map.mp hx
        exact betweenness_nonneg _ v
  · intro h
    have hAtt : attackedList (build_interaction_graph legal bd) = [] := by
      rw [List.eq_nil_iff_forall_not_mem]
      intro v hv
      obtain ⟨e, he, hr, -⟩ := (mem_attackedList _ v).mp hv
      have hshape := (big_edge_shape legal bd e he).2.2.2
      exact h e he (hshape.mp hr)
    unfold compute_fragility_score scoreGraph
    split_ifs
    · rfl
    · rw [hAtt]

/-- Witness for C3: with the everything-illegal oracle the two-rook
position has no edges at all, so the score collapses to `(0, none)`. -/
theorem claim_C3_witness :
    compute_fragility_score noLegal twoRookBoard = (0, none) :=
  (claim_C3 noLegal twoRookBoard).2 (by decide)

/-! ## Annotation extraction -/

/-- Claim C4: the extractor turns a decimal evaluation tag into its
floating-point value, keeps a mate tag as its literal text, and returns
nothing when the comment has no tag. -/
theorem claim_C4 :
    extract_eval "[%eval 0.56]" = .ok (some (.num 0.56)) ∧
    extract_eval "[%eval -1.20]" = .ok (some (.num (-1.20))) ∧
    extract_eval "[%eval #3]" = .ok (some (.mate "#3")) ∧
    extract_eval "[%eval #-4]" = .ok (some (.mate "#-4")) ∧
    ∀ c : String, findTag c.toList = none → extract_eval c = .ok none := by
  refine ⟨?_, ?_, rfl, rfl, ?_⟩
  · have h1 : extract_eval "[%eval 0.56]" = .ok (some (.num ((1 : ℚ) *
        ((digitsToNat ['0'] : ℚ) + (digitsToNat ['5', '6'] : ℚ) / (10 : ℚ) ^ 2)))) := rfl
    rw [h1]
    have h2 : digitsToNat ['0'] = 0 := rfl
    have h3 : digitsToNat ['5', '6'] = 56 := rfl
    rw [h2, h3]
    norm_num
  · have h1 : extract_eval "[%eval -1.20]" = .ok (some (.num ((-1 : ℚ) *
        ((digitsToNat ['1'] : ℚ) + (digitsToNat ['2', '0'] : ℚ) / (10 : ℚ) ^ 2)))) := rfl
    rw [h1]
    have h2 : digitsToNat ['1'] = 1 := rfl
    have h3 : digitsToNat ['2', '0'] = 20 := rfl
    rw [h2, h3]
    norm_num
  · intro c h
    unfold extract_eval
    rw [h]

/-- Witness for C4 on a comment with no tag. -/
theorem claim_C4_witness : extract_eval "1. e4 e5 2. Nf3" = .ok none :=
  claim_C4.2.2.2.2 "1. e4 e5 2. Nf3" rfl

/-- Claim C10: the extractor is not total — the tag body `"."` matches the
decimal alternative of the pattern but `float` fails on it, so the call
raises instead of returning a value or returning absent. -/
theorem claim_C10 :
    extract_eval "[%eval .]" = .error "could not convert string to float" := rfl

/-! ## Reporter: running cumulative evaluation -/

theorem cumFrom_length (rows : List PlyRec) : ∀ acc, (cumFrom acc rows).length = rows.length := by
  induction rows with
  | nil => intro acc; rfl
  | cons r rest ih =>
    intro acc
    unfold cumFrom
    rw [List.length_cons, ih, List.length_cons]

theorem cumFrom_getElem (rows : List PlyRec) :
    ∀ (acc : ℚ) (k : Nat), k < rows.length →
      (cumFrom acc rows)[k]? =
        some (acc + ((rows.take (k + 1)).filterMap (fun r => numOfEval r.evalScore)).sum) := by
  induction rows with
  | nil =>
    intro acc k h
    simp at h
  | cons r rest ih =>
    intro acc k h
    rw [show cumFrom acc (r :: rest) =
      evalStep acc r.evalScore :: cumFrom (evalStep acc r.evalScore) rest from rfl]
    cases k with
    | zero =>
      rw [List.getElem?_cons_zero]
      rcases hre : r.evalScore with - | ev
      · simp [evalStep, numOfEval, hre]
      · cases ev with
        | num q => simp [evalStep, numOfEval, hre]
        | mate s => simp [evalStep, numOfEval, hre]
    | succ k2 =>
      rw [List.getElem?_cons_succ, ih (evalStep acc r.evalScore) k2 (by simpa using h)]
      rw [List.take_succ_cons, List.filterMap_cons]
      rcases hre : r.evalScore with - | ev
      · simp [evalStep, numOfEval, hre]
      · cases ev with
        | num q => simp [evalStep, numOfEval, hre, add_assoc]
        | mate s => simp [evalStep, numOfEval, hre]

/-- Claim C6: each running total printed by the reporter is the sum of
exactly the numeric evaluations of the rows seen so far; mate markers and
absent evaluations contribute nothing. -/
theorem claim_C6 (rows : List PlyRec) :
    (cumulativeEvals rows).length = rows.length ∧
    ∀ k, k < rows.length →
      (cumulativeEvals rows)[k]? =
        some (((rows.take (k + 1)).filterMap (fun r => numOfEval r.evalScore)).sum) := by
  constructor
  · exact cumFrom_length rows 0
  · intro k h
    unfold cumulativeEvals
    rw [cumFrom_getElem rows 0 k h, zero_add]

/-- Witness for C6 at a row list containing a numeric, a mate and an
absent evaluation. -/
theorem claim_C6_witness :
    (cumulativeEvals demoRows)[2]? =
      some (((demoRows.take 3).filterMap (fun r => numOfEval r.evalScore)).sum) :=
  (claim_C6 demoRows).2 2 (by decide)

/-! ## Game walker -/

theorem walkMoves_isError (legal : LegalOracle) (push : PushOracle) :
    ∀ (ms : List (Move × String)) (bd : Board) (ply : Nat),
      exceptIsError (walkMoves legal push bd ply ms) = true ↔
        ∃ mc ∈ ms, exceptIsError (extract_eval mc.2) = true := by
  intro ms
  induction ms with
  | nil =>
    intro bd ply
    simp [walkMoves, exceptIsError]
  | cons mc rest ih =>
    intro bd ply
    unfold walkMoves
    cases hE : extract_eval mc.2 with
    | error e =>
      simp only
      constructor
      · intro _
        exact ⟨mc, List.mem_cons_self mc rest, by rw [hE]; rfl⟩
      · intro _
        rfl
    | ok ev =>
      simp only
      cases hW : walkMoves legal push (push bd mc.1) (ply + 1) rest with
      | error e2 =>
        constructor
        · intro _
          obtain ⟨mc2, hm, herr⟩ := (ih (push bd mc.1) (ply + 1)).mp (by rw [hW]; rfl)
          exact ⟨mc2, List.mem_cons_of_mem mc hm, herr⟩
        · intro _
          rfl
      | ok rs =>
        constructor
        · intro hfalse
          exact absurd hfalse (by simp [exceptIsError])
        · rintro ⟨mc2, hm, herr⟩
          rcases List.mem_cons.mp hm with rfl | hm
          · rw [hE] at herr
            exact absurd herr (by simp [exceptIsError])
          · have := (ih (push bd mc.1) (ply + 1)).mpr ⟨mc2, hm, herr⟩
            rw [hW] at this
            exact absurd this (by simp [exceptIsError])

/-- Counterexample to claim C7 as stated: a game IS read from the input
(the input is not `none`), yet the walker still raises, because the only
move's comment makes the annotation extractor's `float` call fail. -/
theorem claim_C7_counterexample :
    exceptIsError (fragility_and_eval_by_ply noLegal pushId (some badGame)) = true ∧
      some badGame ≠ (none : Option Game) :=
  ⟨rfl, Option.some_ne_none badGame⟩

/-- Claim C7 (amended): the walker raises on a `none` input, and on a
parsed game it raises exactly when some move comment makes the extractor
raise; in every error case the `Except.error` result carries no partial
record sequence. -/
theorem claim_C7_amended (legal : LegalOracle) (push : PushOracle) :
    exceptIsError (fragility_and_eval_by_ply legal push none) = true ∧
    ∀ g : Game,
      (exceptIsError (fragility_and_eval_by_ply legal push (some g)) = true ↔
        ∃ mc ∈ g.moves, exceptIsError (extract_eval mc.2) = true) := by
  refine ⟨rfl, ?_⟩
  intro g
  have hsame : exceptIsError (fragility_and_eval_by_ply legal push (some g)) =
      exceptIsError (walkMoves legal push g.start 0 g.moves) := by
    simp only [fragility_and_eval_by_ply]
    cases walkMoves legal push g.start 0 g.moves <;> rfl
  rw [hsame]
  exact walkMoves_isError legal push g.moves g.start 0

theorem walkMoves_spec (legal : LegalOracle) (push : PushOracle) :
    ∀ (ms : List (Move × String)) (bd : Board) (ply : Nat) (rs : List PlyRec),
      walkMoves legal push bd ply ms = .ok rs →
      rs.length = ms.length ∧
      ∀ (i : Nat) (mc : Move × String), ms[i]? = some mc →
        rs[i]? = some ⟨ply + i + 1, moveUci mc.1,
          (compute_fragility_score legal
            ((ms.take (i + 1)).foldl (fun b m => push b m.1) bd)).1,
          evalOf mc.2,
          (compute_fragility_score legal
            ((ms.take (i + 1)).foldl (fun b m => push b m.1) bd)).2⟩ := by
  intro ms
  induction ms with
  | nil =>
    intro bd ply rs h
    simp only [walkMoves] at h
    injection h with h
    subst h
    exact ⟨rfl, fun i mc hm => by simp at hm⟩
  | cons mc rest ih =>
    intro bd ply rs h
    simp only [walkMoves] at h
    cases hE : extract_eval mc.2 with
    | error e =>
      rw [hE] at h
      exact Except.noConfusion h
    | ok ev =>
      rw [hE] at h
      simp only at h
      cases hW : walkMoves legal push (push bd mc.1) (ply + 1) rest with
      | error e2 =>
        rw [hW] at h
        exact Except.noConfusion h
      | ok rs2 =>
        rw [hW] at h
        simp only at h
        injection h with h
        subst h
        obtain ⟨hlen, hidx⟩ := ih (push bd mc.1) (ply + 1) rs2 hW
        refine ⟨by simp [hlen], ?_⟩
        intro i mc2 hm
        cases i with
        | zero =>
          rw [List.getElem?_cons_zero] at hm
          injection hm with hm
          subst hm
          rw [List.getElem?_cons_zero]
          have hev : evalOf mc.2 = ev := by
            unfold evalOf
            rw [hE]
          rw [hev]
          rfl
        | succ i2 =>
          rw [List.getElem?_cons_succ] at hm
          rw [List.getElem?_cons_succ]
          have hrec := hidx i2 mc2 hm
          rw [hrec]
          have harith : ply + 1 + i2 + 1 = ply + (i2 + 1) + 1 := by omega
          rw [harith]
          rfl

/-- Claim C8: whenever the walker succeeds on a parsed game with `n`
main-line moves, it produces exactly `n + 1` records — record 0 is the
sentinel record for the starting position with no evaluation, and record
`i + 1` carries ply index `i + 1`, the rendered `i`-th move, the scorer's
output for the position after the first `i + 1` moves, and the evaluation
extracted from that move's comment. -/
theorem claim_C8 (legal : LegalOracle) (push : PushOracle) (g : Game) (rs : List PlyRec)
    (h : fragility_and_eval_by_ply legal push (some g) = .ok rs) :
    rs.length = g.moves.length + 1 ∧
    rs[0]? = some ⟨0, "start-pos", (compute_fragility_score legal g.start).1, none,
      (compute_fragility_score legal g.start).2⟩ ∧
    ∀ i mc, g.moves[i]? = some mc →
      rs[i + 1]? = some ⟨i + 1, moveUci mc.1,
        (compute_fragility_score legal (boardAfter push g (i + 1))).1,
        evalOf mc.2,
        (compute_fragility_score legal (boardAfter push g (i + 1))).2⟩ := by
  simp only [fragility_and_eval_by_ply] at h
  cases hW : walkMoves legal push g.start 0 g.moves with
  | error e =>
    rw [hW] at h
    exact absurd h (by simp)
  | ok rs2 =>
    rw [hW] at h
    simp only at h
    injection h with h
    subst h
    obtain ⟨hlen, hidx⟩ := walkMoves_spec legal push g.moves g.start 0 rs2 hW
    refine ⟨by simp [hlen], by rw [List.getElem?_cons_zero], ?_⟩
    intro i mc hm
    rw [List.getElem?_cons_succ]
    have hrec := hidx i mc hm
    rw [hrec]
    have harith : 0 + i + 1 = i + 1 := by omega
    rw [harith]
    rfl

/-- Witness for C8: the two-move tag-free game yields three records. -/
theorem claim_C8_witness : plainRs.length = plainGame.moves.length + 1 :=
  (claim_C8 noLegal pushId plainGame plainRs rfl).1

end Frag
